import Mathlib

/-!
Shallow embedding of the qdrant excerpt:
  - `lib/collection/src/shards/local_shard/clock_map.rs` (clock map, recovery point)
  - `lib/segment/src/index/field_index/full_text_index/inverted_index.rs`
  - `lib/segment/src/index/field_index/full_text_index/posting_list.rs`

Machine integers (`u32`, `u64`, `usize`) are modelled as `Nat`: the code performs no
arithmetic that can wrap (ticks only move through `max`, ids only through `len()`-style
counters), so `Nat` is faithful.  `HashMap`s are modelled pointwise as functions to
`Option` or as association lists, as noted on each definition.
-/

/-! ## Clock map (`clock_map.rs`) -/

/-- `pub type PeerId = u64` (`shard.rs`). -/
abbrev PeerId := Nat

/-- Modelled from the spec: `ClockTag` lives in `crate::operations`, outside the excerpt.
Its shape per the spec is `\x7bpeer_id: u64, clock_id: u32, clock_tick: u64, force: bool\x7d`. -/
structure ClockTag where
  peer_id : PeerId
  clock_id : Nat
  clock_tick : Nat
  force : Bool
deriving DecidableEq, Repr

/-- `Key { peer_id, clock_id }` from `clock_map.rs`. -/
structure Key where
  peer_id : PeerId
  clock_id : Nat
deriving DecidableEq, Repr

/-- `Key::from_tag`. -/
def Key.from_tag (clock_tag : ClockTag) : Key :=
  { peer_id := clock_tag.peer_id, clock_id := clock_tag.clock_id }

/-- `Clock::advance_to`.  The stored tick is the `Nat` argument `current_tick`; the atomic
`fetch_max` returns the previous value and stores the max.  Result is
`((returned clock_updated, returned current tick), new stored tick)`.  The source computes
`_clock_updated = old_tick < new_tick` but currently returns `true` unconditionally
(`TODO` in the source). -/
def Clock.advance_to (current_tick new_tick : Nat) : (Bool × Nat) × Nat :=
  let old_tick := current_tick
  let _clock_updated := decide (old_tick < new_tick)
  let current := max old_tick new_tick
  ((true, current), max old_tick new_tick)

/-- `ClockMap.clocks : HashMap<Key, Clock>`, modelled pointwise as a function from keys to
the stored tick (`none` = key absent). -/
def ClockMap := Key → Option Nat

/-- The empty clock map (`ClockMap::default`). -/
def ClockMap.empty : ClockMap := fun _ => none

/-- Store `tick` under `k` (a `HashMap` insert / in-place clock store). -/
def ClockMap.update (m : ClockMap) (k : Key) (tick : Nat) : ClockMap :=
  fun k2 => if k2 = k then some tick else m k2

/-- `ClockMap::advance_clock_impl`: occupied entries delegate to `Clock::advance_to`,
vacant entries are initialized with the tag's tick.  Returns
`((clock_updated, current_tick), new map)`. -/
def ClockMap.advance_clock_impl (m : ClockMap) (clock_tag : ClockTag) :
    (Bool × Nat) × ClockMap :=
  let key := Key.from_tag clock_tag
  let new_tick := clock_tag.clock_tick
  match m key with
  | some current =>
      let r := Clock.advance_to current new_tick
      (r.1, m.update key r.2)
  | none => ((true, new_tick), m.update key new_tick)

/-- `ClockMap::advance_clock`. -/
def ClockMap.advance_clock (m : ClockMap) (clock_tag : ClockTag) : ClockMap :=
  (m.advance_clock_impl clock_tag).2

/-- `ClockMap::advance_clock_and_correct_tag`.  Returns
`(operation accepted, possibly corrected tag, new map)`; the tag is corrected in place in
the source (`&mut ClockTag`), modelled by returning the new tag. -/
def ClockMap.advance_clock_and_correct_tag (m : ClockMap) (clock_tag : ClockTag) :
    Bool × ClockTag × ClockMap :=
  let r := m.advance_clock_impl clock_tag
  let clock_updated := r.1.1
  let current_tick := r.1.2
  let _operation_accepted := clock_updated || clock_tag.clock_tick == 0 || clock_tag.force
  let update_tag := (!clock_updated || clock_tag.clock_tick == 0) && !clock_tag.force
  let corrected := if update_tag then { clock_tag with clock_tick := current_tick } else clock_tag
  (true, corrected, r.2)

/-- `RecoveryPoint.clocks : HashMap<Key, u64>`, modelled pointwise. -/
def RecoveryPoint := Key → Option Nat

/-- `RecoveryPoint::extend_with_missing_clocks`: `entry(*key).or_insert_with(tick)` over
every entry of the clock map; modelled pointwise (the iteration only ever touches the
entry of the key at hand, so the pointwise view is exact). -/
def RecoveryPoint.extend_with_missing_clocks (r : RecoveryPoint) (m : ClockMap) :
    RecoveryPoint :=
  fun k =>
    match r k with
    | some t => some t
    | none => m k

/-- The stored tick for a key, defaulting to 0 when the key is absent. -/
def ClockMap.tickD (m : ClockMap) (k : Key) : Nat := (m k).getD 0

/-- One call of either `advance_clock` (`op.1 = false`) or
`advance_clock_and_correct_tag` (`op.1 = true`); both delegate the map change to
`advance_clock_impl`. -/
def ClockMap.stepOp (m : ClockMap) (op : Bool × ClockTag) : ClockMap :=
  if op.1 then (m.advance_clock_and_correct_tag op.2).2.2 else m.advance_clock op.2

/-- A sequence of advance calls applied left to right. -/
def ClockMap.runOps (m : ClockMap) (ops : List (Bool × ClockTag)) : ClockMap :=
  ops.foldl ClockMap.stepOp m

/-! ## Posting lists (`posting_list.rs`) -/

/-- `pub type PointOffsetType = u32` (external `common` crate). -/
abbrev PointOffsetType := Nat

/-- `PostingList { list: Vec<PointOffsetType> }`. -/
structure PostingList where
  list : List PointOffsetType
deriving DecidableEq, Repr

/-- `PostingList::new`. -/
def PostingList.new (idx : PointOffsetType) : PostingList := ⟨[idx]⟩

/-- Ordered insertion into a sorted duplicate-free list; models
`binary_search` (found → no-op) + `Vec::insert` at the reported position. -/
def insertSortedList (idx : Nat) : List Nat → List Nat
  | [] => [idx]
  | x :: xs =>
    if idx < x then idx :: x :: xs
    else if idx = x then x :: xs
    else x :: insertSortedList idx xs

/-- `PostingList::insert`. -/
def PostingList.insert (l : PostingList) (idx : PointOffsetType) : PostingList :=
  ⟨insertSortedList idx l.list⟩

/-- `PostingList::remove`: `binary_search` (absent → no-op) + `Vec::remove`; on the sorted
duplicate-free lists the code maintains this is exactly erasing the (sole) occurrence. -/
def PostingList.remove (l : PostingList) (idx : PointOffsetType) : PostingList :=
  ⟨l.list.erase idx⟩

/-- `PostingList::len`. -/
def PostingList.len (l : PostingList) : Nat := l.list.length

/-- `PostingList::contains` (`binary_search(val).is_ok()`, i.e. membership on the sorted
lists the code maintains). -/
def PostingList.containsId (l : PostingList) (val : PointOffsetType) : Bool :=
  l.list.contains val

/-- `BitPacker4x::BLOCK_LEN` from the external `bitpacking` crate. -/
def BLOCK_LEN : Nat := 128

/-- `CompressedPostingChunk { offset, data }`.  Modelled from the external `bitpacking`
crate at delta granularity: the byte buffer `data: Box<[u8]>` holds the bit-packed
successive differences of the block; this model stores those differences directly (the
bit width bookkeeping `bits = bytes*8/128` is invertible and carries no information). -/
structure CompressedPostingChunk where
  offset : Nat
  data : List Nat
deriving DecidableEq, Repr

/-- Modelled from the external `bitpacking` crate: `compress_sorted(initial, block)`
delta-encodes the block against the running previous value, starting at `initial`. -/
def compress_sorted (initial : Nat) : List Nat → List Nat
  | [] => []
  | x :: xs => (x - initial) :: compress_sorted x xs

/-- Modelled from the external `bitpacking` crate: `decompress_sorted` prefix-sums the
deltas starting at `initial`. -/
def decompress_sorted (initial : Nat) : List Nat → List Nat
  | [] => []
  | d :: ds => (initial + d) :: decompress_sorted (initial + d) ds

/-- `CompressedPostingList { len, data }`. -/
structure CompressedPostingList where
  len : Nat
  data : List CompressedPostingChunk
deriving DecidableEq, Repr

/-- `slice::chunks_exact(n)`: full chunks of size `n`, any shorter tail dropped. -/
def chunksExact (n : Nat) (l : List Nat) : List (List Nat) :=
  if _h : 0 < n ∧ n ≤ l.length then
    l.take n :: chunksExact n (l.drop n)
  else []
termination_by l.length
decreasing_by simp only [List.length_drop]; omega

/-- `CompressedPostingList::new`: empty input gives the default; otherwise sort
(`sort_unstable`, modelled by `insertionSort`), remember `len`, pad with copies of the
last id to a multiple of `BLOCK_LEN` (the source's `while` push loop), and encode each
128-block against its first element as offset.  The source's debug decompress self-check
(`panic!` on mismatch) always passes in this model; that is the per-chunk round-trip
proved below. -/
def CompressedPostingList.new (posting_list : PostingList) : CompressedPostingList :=
  if posting_list.list.isEmpty then { len := 0, data := [] }
  else
    let sorted := List.insertionSort (· ≤ ·) posting_list.list
    let len := sorted.length
    let last := sorted.getLast?.getD 0
    let padded := sorted ++ List.replicate ((BLOCK_LEN - len % BLOCK_LEN) % BLOCK_LEN) last
    { len := len
      data := (chunksExact BLOCK_LEN padded).map fun chunk =>
        { offset := chunk.headD 0, data := compress_sorted (chunk.headD 0) chunk } }

/-- `CompressedPostingList::iter(filter)`: decode every chunk, concatenate, keep only the
true `len` first elements (suppressing the tail pad), then apply the filter. -/
def CompressedPostingList.iter (cl : CompressedPostingList) (filter : Nat → Bool) :
    List Nat :=
  (((cl.data.map fun chunk => decompress_sorted chunk.offset chunk.data).flatten).take
    cl.len).filter filter

/-! ## Inverted index (`inverted_index.rs`) -/

/-- `pub type TokenId = u32`. -/
abbrev TokenId := Nat

/-- `Document { tokens: Vec<TokenId> }`. -/
structure Document where
  tokens : List TokenId
deriving DecidableEq, Repr

/-- `Document::new` sorts its tokens (`sort_unstable`, modelled by `insertionSort`). -/
def Document.new (tokens : List TokenId) : Document :=
  ⟨List.insertionSort (· ≤ ·) tokens⟩

/-- `Document::len`. -/
def Document.len (d : Document) : Nat := d.tokens.length

/-- `ParsedQuery { tokens: Vec<Option<TokenId>> }`. -/
structure ParsedQuery where
  tokens : List (Option TokenId)
deriving DecidableEq, Repr

/-- `vocab: HashMap<String, TokenId>` modelled as an association list in insertion order;
`HashMap::len` is its length (every insertion in the source is guarded by a failed
lookup, so keys stay unique and the lengths agree), `HashMap::get` is `List.lookup`. -/
abbrev Vocab := List (String × TokenId)

/-- `OperationError` (only the variant this excerpt raises). -/
inductive OperationError where
  | service_error (description : String)
deriving DecidableEq, Repr

/-- `MutableInvertedIndex`. -/
structure MutableInvertedIndex where
  postings : List (Option PostingList)
  vocab : Vocab
  point_to_docs : List (Option Document)
  points_count : Nat
deriving DecidableEq, Repr

/-- `MutableInvertedIndex::default`. -/
def MutableInvertedIndex.defaultIndex : MutableInvertedIndex := ⟨[], [], [], 0⟩

/-- `ImmutableInvertedIndex`. -/
structure ImmutableInvertedIndex where
  postings : List (Option PostingList)
  vocab : Vocab
  point_documents_tokens : List (Option Nat)
  points_count : Nat
deriving DecidableEq, Repr

/-- The `InvertedIndex` enumeration. -/
inductive InvertedIndex where
  | Mutable (index : MutableInvertedIndex)
  | Immutable (index : ImmutableInvertedIndex)
deriving DecidableEq, Repr

/-- `InvertedIndex::new`. -/
def InvertedIndex.new (is_appendable : Bool) : InvertedIndex :=
  if is_appendable then .Mutable MutableInvertedIndex.defaultIndex
  else .Immutable ⟨[], [], [], 0⟩

/-- The `postings` of whichever variant (the repeated `match self` of the source). -/
def InvertedIndex.postingsOf : InvertedIndex → List (Option PostingList)
  | .Mutable index => index.postings
  | .Immutable index => index.postings

/-- The `vocab` of whichever variant. -/
def InvertedIndex.vocabOf : InvertedIndex → Vocab
  | .Mutable index => index.vocab
  | .Immutable index => index.vocab

/-- `InvertedIndex::points_count`. -/
def InvertedIndex.pointsCountOf : InvertedIndex → Nat
  | .Mutable index => index.points_count
  | .Immutable index => index.points_count

/-- `InvertedIndex::get_token`. -/
def InvertedIndex.get_token (self : InvertedIndex) (token : String) : Option TokenId :=
  (self.vocabOf).lookup token

/-- The per-token interning step of `InvertedIndex::document_from_tokens`: look the
string up, otherwise assign `vocab.len()` as the next id and insert. -/
def internToken (acc : Vocab × List TokenId) (token : String) : Vocab × List TokenId :=
  match acc.1.lookup token with
  | some idx => (acc.1, acc.2 ++ [idx])
  | none =>
      let next_token_id := acc.1.length
      (acc.1 ++ [(token, next_token_id)], acc.2 ++ [next_token_id])

/-- `InvertedIndex::document_from_tokens`: interns every string of the ordered token set
into the facade's own vocabulary (whichever variant) and returns the sorted document.
The iteration order of the `BTreeSet<String>` argument is the list order here. -/
def InvertedIndex.document_from_tokens (self : InvertedIndex) (tokens : List String) :
    Document × InvertedIndex :=
  let r := tokens.foldl internToken (self.vocabOf, [])
  let doc := Document.new r.2
  match self with
  | .Mutable index => (doc, .Mutable { index with vocab := r.1 })
  | .Immutable index => (doc, .Immutable { index with vocab := r.1 })

/-- `Vec::resize_with(n, Default::default)` on a vector of `Option`s (the source only
calls it to grow). -/
def resizeWithNone {α : Type} (l : List (Option α)) (n : Nat) : List (Option α) :=
  l ++ List.replicate (n - l.length) none

/-- The postings loop body of `MutableInvertedIndex::index_document` for one token: grow
the table to `token + 1` if needed, then create or extend the posting there. -/
def indexTokenPosting (idx : PointOffsetType) (postings : List (Option PostingList))
    (token_idx : TokenId) : List (Option PostingList) :=
  let postings :=
    if postings.length ≤ token_idx then resizeWithNone postings (token_idx + 1)
    else postings
  match postings[token_idx]? with
  | some none => postings.set token_idx (some (PostingList.new idx))
  | some (some vec) => postings.set token_idx (some (vec.insert idx))
  | none => postings

/-- `MutableInvertedIndex::index_document` (it never fails; the `OperationResult` is
always `Ok`). -/
def MutableInvertedIndex.index_document (s : MutableInvertedIndex)
    (idx : PointOffsetType) (document : Document) : MutableInvertedIndex :=
  let point_to_docs :=
    if s.point_to_docs.length ≤ idx then resizeWithNone s.point_to_docs (idx + 1)
    else s.point_to_docs
  { postings := document.tokens.foldl (indexTokenPosting idx) s.postings
    vocab := s.vocab
    point_to_docs := point_to_docs.set idx (some document)
    points_count := s.points_count + 1 }

/-- `InvertedIndex::index_document`: `(raised error, state after the call)`.  The
immutable variant rejects with a service error (the source message reads "Can" + a
shortened "t add values to immutable text index") and its `&mut self` is untouched. -/
def InvertedIndex.index_document (self : InvertedIndex) (idx : PointOffsetType)
    (document : Document) : Option OperationError × InvertedIndex :=
  match self with
  | .Mutable index => (none, .Mutable (index.index_document idx document))
  | .Immutable index =>
      (some (.service_error "cannot add values to immutable text index"),
        .Immutable index)

/-- One step of the posting-erase loop of `MutableInvertedIndex::remove_document`:
`self.postings.get_mut(*removed_token as usize).unwrap()` panics (outer `none`) when the
token is out of bounds; a present `Some` posting loses the id. -/
def removeTokenPosting (idx : PointOffsetType)
    (acc : Option (List (Option PostingList))) (token : TokenId) :
    Option (List (Option PostingList)) :=
  acc.bind fun postings =>
    match postings[token]? with
    | none => none
    | some none => some postings
    | some (some vec) => some (postings.set token (some (vec.remove idx)))

/-- `MutableInvertedIndex::remove_document`; `none` models the panic of the unwrap in
the erase loop, `some (existed, new state)` is the normal return. -/
def MutableInvertedIndex.remove_document (s : MutableInvertedIndex)
    (idx : PointOffsetType) : Option (Bool × MutableInvertedIndex) :=
  if s.point_to_docs.length ≤ idx then some (false, s)
  else
    match s.point_to_docs[idx]? with
    | none => some (false, s)
    | some none => some (false, s)
    | some (some removed_doc) =>
        (removed_doc.tokens.foldl (removeTokenPosting idx) (some s.postings)).map
          fun postings =>
            (true,
              { postings := postings
                vocab := s.vocab
                point_to_docs := s.point_to_docs.set idx none
                points_count := s.points_count - 1 })

/-- `ImmutableInvertedIndex::values_is_empty`. -/
def ImmutableInvertedIndex.values_is_empty (s : ImmutableInvertedIndex)
    (point_id : PointOffsetType) : Bool :=
  if s.point_documents_tokens.length ≤ point_id then true
  else (s.point_documents_tokens[point_id]?.getD none).isNone

/-- `ImmutableInvertedIndex::remove_document`. -/
def ImmutableInvertedIndex.remove_document (s : ImmutableInvertedIndex)
    (idx : PointOffsetType) : Bool × ImmutableInvertedIndex :=
  if s.values_is_empty idx then (false, s)
  else
    (true,
      { s with
        point_documents_tokens := s.point_documents_tokens.set idx none
        points_count := s.points_count - 1 })

/-- `From<MutableInvertedIndex> for ImmutableInvertedIndex`: postings and vocabulary are
moved over, `point_to_docs` collapses to its length projection. -/
def MutableInvertedIndex.toImmutable (index : MutableInvertedIndex) :
    ImmutableInvertedIndex :=
  { postings := index.postings
    vocab := index.vocab
    point_documents_tokens := index.point_to_docs.map fun doc => doc.map Document.len
    points_count := index.points_count }

/-- The `postings_opt` gathering loop that `InvertedIndex::filter` and
`InvertedIndex::estimate_cardinality` both inline verbatim:
`collect::<Option<Vec<_>>>` over the lazily mapped query tokens, stopping at the first
unresolved token or absent posting slot (inner `none`); the outer `none` models the panic
of `index_postings.get(idx as usize).unwrap()` on an out-of-bounds token id, which the
source comments rule out by the vocabulary invariant. -/
def gatherPostings (postings : List (Option PostingList)) :
    List (Option TokenId) → Option (Option (List PostingList))
  | [] => some (some [])
  | none :: _ => some none
  | some idx :: rest =>
      match postings[idx]? with
      | none => none
      | some none => some none
      | some (some pl) => (gatherPostings postings rest).map (Option.map (pl :: ·))

/-- Modelled from the spec: `intersect_postings_iterator` lives in
`postings_iterator.rs`, outside the excerpt.  Per the spec it is an n-way sorted merge
returning the set-theoretic intersection of the postings; modelled as filtering the first
posting by membership in all the others. -/
def intersect_postings_iterator (postings : List PostingList) : List PointOffsetType :=
  match postings with
  | [] => []
  | p :: rest => p.list.filter fun x => rest.all fun q => q.containsId x

/-- `InvertedIndex::filter`; `none` models the panic of the out-of-bounds unwrap inside
the gathering loop. -/
def InvertedIndex.filter (self : InvertedIndex) (query : ParsedQuery) :
    Option (List PointOffsetType) :=
  match gatherPostings self.postingsOf query.tokens with
  | none => none
  | some none => some []
  | some (some postings) =>
      if postings.isEmpty then some []
      else some (intersect_postings_iterator postings)

/-- `CardinalityEstimation`; the `FieldCondition` carried by `PrimaryCondition` is opaque
to this excerpt's logic and kept as a type parameter. -/
structure CardinalityEstimation (α : Type) where
  primary_clauses : List α
  min : Nat
  exp : Nat
  max : Nat
deriving DecidableEq, Repr

/-- `InvertedIndex::estimate_cardinality`; `none` models the same out-of-bounds panic as
in `filter`.  The `f64` product `∏ len_i / points_count` and the `as usize` truncation
are modelled in exact rational arithmetic (`Nat.floor`); no claim below depends on the
value of `exp` in the several-postings branch, so the rounding difference is immaterial. -/
def InvertedIndex.estimate_cardinality {α : Type} (self : InvertedIndex)
    (query : ParsedQuery) (condition : α) : Option (CardinalityEstimation α) :=
  let points_count := self.pointsCountOf
  match gatherPostings self.postingsOf query.tokens with
  | none => none
  | some none => some ⟨[condition], 0, 0, 0⟩
  | some (some postings) =>
      if postings.isEmpty then some ⟨[condition], 0, 0, 0⟩
      else
        let smallest_posting := ((postings.map fun p => p.len).min?).getD 0
        if postings.length = 1 then
          some ⟨[condition], smallest_posting, smallest_posting, smallest_posting⟩
        else
          let expected_frac : ℚ :=
            (postings.map fun p => (p.len : ℚ) / (points_count : ℚ)).prod
          some ⟨[condition], 0, Nat.floor (expected_frac * (points_count : ℚ)),
            smallest_posting⟩

/-- `InvertedIndex::build_index`.  The source interns each token set through
`self.document_from_tokens` — growing the vocabulary of the OLD index — while the
documents and postings go into the fresh `index`, which finally replaces `self`
wholesale, vocabulary included.  The `OperationResult` items of the iterator are
modelled as the all-`Ok` stream (an `Err` item merely aborts the build early and is
orthogonal to the claims). -/
def InvertedIndex.build_index (self : InvertedIndex)
    (iter : List (PointOffsetType × List String)) : InvertedIndex :=
  let r := iter.foldl
    (fun (acc : InvertedIndex × MutableInvertedIndex) i =>
      let d := acc.1.document_from_tokens i.2
      (d.2, acc.2.index_document i.1 d.1))
    (self, MutableInvertedIndex.defaultIndex)
  match r.1 with
  | .Mutable _ => .Mutable r.2
  | .Immutable _ => .Immutable r.2.toImmutable

/-- The API surface a caller can drive, for the C4 state-machine invariant:
`document_from_tokens` alone, `document_from_tokens` followed by `index_document` of the
produced document, `remove_document`, and the mutable-to-immutable conversion. -/
inductive IndexOp where
  | newDoc (tokens : List String)
  | addDoc (idx : PointOffsetType) (tokens : List String)
  | removeDoc (idx : PointOffsetType)
  | freeze
deriving DecidableEq, Repr

/-- One API call; `none` propagates a panic of `remove_document` (the only partial
operation). -/
def InvertedIndex.applyOp (self : InvertedIndex) (op : IndexOp) :
    Option InvertedIndex :=
  match op with
  | .newDoc tokens => some (self.document_from_tokens tokens).2
  | .addDoc idx tokens =>
      let d := self.document_from_tokens tokens
      some (d.2.index_document idx d.1).2
  | .removeDoc idx =>
      match self with
      | .Mutable index => (index.remove_document idx).map fun r => .Mutable r.2
      | .Immutable index => some (.Immutable (index.remove_document idx).2)
  | .freeze =>
      match self with
      | .Mutable index => some (.Immutable index.toImmutable)
      | .Immutable index => some (.Immutable index)

/-- A sequence of API calls applied left to right. -/
def InvertedIndex.runIndexOps (self : InvertedIndex) :
    List IndexOp → Option InvertedIndex
  | [] => some self
  | op :: rest => (self.applyOp op).bind fun s2 => s2.runIndexOps rest

/-- All token ids stored in a currently indexed document (the immutable variant stores
only per-document lengths, hence no token ids). -/
def InvertedIndex.storedTokens : InvertedIndex → List TokenId
  | .Mutable index => ((index.point_to_docs.filterMap id).map Document.tokens).flatten
  | .Immutable _ => []

/-- Some string of the vocabulary is interned with this token id. -/
def VocabHasId (v : Vocab) (t : TokenId) : Prop := ∃ str, (str, t) ∈ v

/-- The alignment invariant of the data model: every token id stored in a currently
indexed document has a vocabulary entry and an in-bounds slot in the postings table. -/
def IndexAligned (s : InvertedIndex) : Prop :=
  ∀ t ∈ s.storedTokens, VocabHasId s.vocabOf t ∧ t < s.postingsOf.length

lemma ClockMap.stepOp_eq (m : ClockMap) (op : Bool × ClockTag) :
    m.stepOp op = (m.advance_clock_impl op.2).2 := by
  obtain ⟨b, t⟩ := op
  cases b <;> rfl

lemma ClockMap.tickD_advance_clock_impl (m : ClockMap) (t : ClockTag) (k : Key) :
    (m.advance_clock_impl t).2.tickD k =
      if Key.from_tag t = k then max (m.tickD k) t.clock_tick else m.tickD k := by
  unfold ClockMap.advance_clock_impl ClockMap.tickD ClockMap.update Clock.advance_to
  by_cases hk : Key.from_tag t = k
  · subst hk
    cases hm : m (Key.from_tag t) <;> simp [hm]
  · have hk2 : ¬(k = Key.from_tag t) := fun h => hk h.symm
    cases hm : m (Key.from_tag t) <;> simp [hm, hk2, hk]

lemma ClockMap.runOps_append (m : ClockMap) (l1 l2 : List (Bool × ClockTag)) :
    m.runOps (l1 ++ l2) = (m.runOps l1).runOps l2 :=
  List.foldl_append _ _ _ _

lemma foldl_max_le_foldl_max {a b : Nat} (l : List Nat) (h : a ≤ b) :
    l.foldl max a ≤ l.foldl max b := by
  induction l generalizing a b with
  | nil => exact h
  | cons x xs ih => exact ih (by omega)

lemma le_foldl_max (a : Nat) (l : List Nat) : a ≤ l.foldl max a := by
  induction l generalizing a with
  | nil => exact le_rfl
  | cons x xs ih => exact le_trans (Nat.le_max_left a x) (ih _)

lemma ClockMap.tickD_runOps (m : ClockMap) (ops : List (Bool × ClockTag)) (k : Key) :
    (m.runOps ops).tickD k =
      ((ops.filter (fun op => decide (Key.from_tag op.2 = k))).map
        (fun op => op.2.clock_tick)).foldl max (m.tickD k) := by
  induction ops generalizing m with
  | nil => rfl
  | cons op ops ih =>
      have hstep : (m.stepOp op).tickD k =
          if Key.from_tag op.2 = k then max (m.tickD k) op.2.clock_tick else m.tickD k := by
        rw [ClockMap.stepOp_eq]
        exact m.tickD_advance_clock_impl op.2 k
      show ((m.stepOp op).runOps ops).tickD k = _
      rw [ih]
      by_cases hk : Key.from_tag op.2 = k
      · simp [List.filter_cons, hk, hstep]
      · simp [List.filter_cons, hk, hstep]

/-- Claim C1, counterexample: the claim states that a tag whose nonzero tick is not
strictly greater than the stored tick is overwritten with the current tick.  On the map
`{(1,0) ↦ 10}` and the tag `(peer 1, clock 0, tick 5, force false)`, the code leaves the
tag's tick at 5 instead of overwriting it with `max 10 5 = 10`, because `Clock::advance_to`
currently reports `clock_updated = true` unconditionally. -/
theorem C1_correct_tag_counterexample :
    ¬(((ClockMap.empty.update ⟨1, 0⟩ 10).advance_clock_and_correct_tag
        ⟨1, 0, 5, false⟩).2.1.clock_tick = max 10 5) := by decide

/-- Claim C1 (amended): after `advance_clock_and_correct_tag`: a forced tag is unchanged;
a tag with `clock_tick = 0` (and not forced) has its tick overwritten with the current
tick, which is the previously stored tick for its key (0 when the key is new), i.e.
`max(stored tick, 0)`; every tag with a nonzero tick (and not forced) is left unchanged —
even one whose tick is not strictly greater than the stored tick — because
`Clock::advance_to` currently reports the clock as updated unconditionally (`TODO` in the
source). -/
theorem C1_correct_tag_amended (m : ClockMap) (clock_tag : ClockTag) :
    (clock_tag.force = true →
      (m.advance_clock_and_correct_tag clock_tag).2.1 = clock_tag) ∧
    (clock_tag.force = false → clock_tag.clock_tick = 0 →
      (m.advance_clock_and_correct_tag clock_tag).2.1.clock_tick =
        (m (Key.from_tag clock_tag)).getD 0) ∧
    (clock_tag.force = false → clock_tag.clock_tick ≠ 0 →
      (m.advance_clock_and_correct_tag clock_tag).2.1 = clock_tag) := by
  unfold ClockMap.advance_clock_and_correct_tag ClockMap.advance_clock_impl Clock.advance_to
  refine ⟨fun hf => ?_, fun hf h0 => ?_, fun hf h0 => ?_⟩
  · cases hm : m (Key.from_tag clock_tag) <;> simp [hm, hf]
  · cases hm : m (Key.from_tag clock_tag) <;> simp [hm, hf, h0]
  · cases hm : m (Key.from_tag clock_tag) <;> simp [hm, hf, h0]

/-- Witness for C1 (amended): on the map `{(1,0) ↦ 7}`, a zero-tick unforced tag for key
`(1,0)` is stamped with the stored tick 7. -/
theorem C1_correct_tag_amended_witness :
    ((ClockMap.empty.update ⟨1, 0⟩ 7).advance_clock_and_correct_tag
        ⟨1, 0, 0, false⟩).2.1.clock_tick = 7 := by
  have h := (C1_correct_tag_amended (ClockMap.empty.update ⟨1, 0⟩ 7)
    ⟨1, 0, 0, false⟩).2.1 rfl rfl
  exact h.trans (by decide)

/-- Claim C6: for every key and every sequence of `advance_clock` /
`advance_clock_and_correct_tag` calls, the stored tick for that key never decreases
(every extension of the call sequence only raises it), and after the sequence it equals
the maximum of the initially stored tick and every tick carried by a tag for that key. -/
theorem C6_clock_monotonicity (m : ClockMap) (ops : List (Bool × ClockTag)) (k : Key) :
    (m.runOps ops).tickD k =
      ((ops.filter (fun op => decide (Key.from_tag op.2 = k))).map
        (fun op => op.2.clock_tick)).foldl max (m.tickD k) ∧
    ∀ more : List (Bool × ClockTag),
      (m.runOps ops).tickD k ≤ (m.runOps (ops ++ more)).tickD k := by
  refine ⟨m.tickD_runOps ops k, fun more => ?_⟩
  rw [ClockMap.runOps_append, ClockMap.tickD_runOps (m.runOps ops) more k]
  exact le_foldl_max _ _

/-- Claim C9: after `extend_with_missing_clocks`, keys absent from the recovery point take
the clock map's tick, keys already present keep exactly their prior tick, and no key is
removed. -/
theorem C9_extend_with_missing_clocks (r : RecoveryPoint) (m : ClockMap) (k : Key) :
    (r k = none → r.extend_with_missing_clocks m k = m k) ∧
    (∀ t, r k = some t → r.extend_with_missing_clocks m k = some t) ∧
    (r.extend_with_missing_clocks m k = none → r k = none) := by
  unfold RecoveryPoint.extend_with_missing_clocks
  refine ⟨fun h => by simp [h], fun t h => by simp [h], fun h => ?_⟩
  cases hr : r k with
  | none => rfl
  | some t => simp [hr] at h

/-- Witness for C9, the spec's scenario 6: recovery point `{(1,0) ↦ 10}` extended with
clock map `{(1,0) ↦ 20, (2,0) ↦ 4}` keeps tick 10 at `(1,0)` and gains tick 4 at `(2,0)`. -/
theorem C9_extend_with_missing_clocks_witness :
    (RecoveryPoint.extend_with_missing_clocks
        (fun k => if k = Key.mk 1 0 then some 10 else none)
        (ClockMap.update (ClockMap.update ClockMap.empty ⟨2, 0⟩ 4) ⟨1, 0⟩ 20) ⟨1, 0⟩
      = some 10) ∧
    (RecoveryPoint.extend_with_missing_clocks
        (fun k => if k = Key.mk 1 0 then some 10 else none)
        (ClockMap.update (ClockMap.update ClockMap.empty ⟨2, 0⟩ 4) ⟨1, 0⟩ 20) ⟨2, 0⟩
      = some 4) := by
  constructor
  · exact (C9_extend_with_missing_clocks _ _ _).2.1 10 (by decide)
  · exact ((C9_extend_with_missing_clocks _ _ _).1 (by decide)).trans (by decide)

lemma decompress_compress (initial : Nat) (chunk : List Nat)
    (h : List.Chain (· ≤ ·) initial chunk) :
    decompress_sorted initial (compress_sorted initial chunk) = chunk := by
  induction chunk generalizing initial with
  | nil => rfl
  | cons x xs ih =>
      rcases List.chain_cons.mp h with ⟨hle, hch⟩
      rw [compress_sorted, decompress_sorted]
      have hx : initial + (x - initial) = x := by omega
      rw [hx]
      exact congrArg (x :: ·) (ih x hch)

lemma chain_headD_of_sorted (c : List Nat) (hs : List.Sorted (· ≤ ·) c) :
    List.Chain (· ≤ ·) (c.headD 0) c := by
  cases c with
  | nil => exact List.Chain.nil
  | cons x xs =>
      have hch : List.Chain' (· ≤ ·) (x :: xs) := List.chain'_iff_pairwise.mpr hs
      rw [List.headD_cons, List.chain_cons]
      exact ⟨le_rfl, hch⟩

lemma le_getLastD_of_sorted :
    ∀ l : List Nat, List.Sorted (· ≤ ·) l → ∀ x ∈ l, x ≤ l.getLast?.getD 0 := by
  intro l
  induction l with
  | nil => intro _ x hx; cases hx
  | cons a as ih =>
      intro hs x hx
      rcases List.sorted_cons.mp hs with ⟨ha, has⟩
      cases as with
      | nil =>
          rcases List.mem_singleton.mp hx with rfl
          simp
      | cons b bs =>
          have hlast : (a :: b :: bs).getLast? = (b :: bs).getLast? := by
            rw [List.getLast?_cons_cons]
          rcases List.mem_cons.mp hx with rfl | hmem
          · have hg : (b :: bs).getLast (by simp) ∈ b :: bs := List.getLast_mem _
            have hxg : x ≤ (b :: bs).getLast (by simp) := ha _ hg
            rw [hlast, List.getLast?_eq_getLast _ (by simp)]
            simpa using hxg
          · rw [hlast]; exact ih has x hmem

lemma flatten_decode_chunksExact :
    ∀ (n : Nat) (l : List Nat), l.length = n → l.length % BLOCK_LEN = 0 →
      List.Sorted (· ≤ ·) l →
      ((chunksExact BLOCK_LEN l).map fun chunk =>
          decompress_sorted (chunk.headD 0) (compress_sorted (chunk.headD 0) chunk)).flatten
        = l := by
  intro n
  induction n using Nat.strong_induction_on with
  | _ n ih =>
      intro l hn hmod hs
      rw [chunksExact]
      split
      case isTrue h =>
        have htake : List.Sorted (· ≤ ·) (l.take BLOCK_LEN) :=
          List.Pairwise.sublist (List.take_sublist _ _) hs
        have hdrop : List.Sorted (· ≤ ·) (l.drop BLOCK_LEN) :=
          List.Pairwise.sublist (List.drop_sublist _ _) hs
        have hdec : decompress_sorted ((l.take BLOCK_LEN).headD 0)
            (compress_sorted ((l.take BLOCK_LEN).headD 0) (l.take BLOCK_LEN))
            = l.take BLOCK_LEN :=
          decompress_compress _ _ (chain_headD_of_sorted _ htake)
        have hlen : (l.drop BLOCK_LEN).length = n - BLOCK_LEN := by
          simp [List.length_drop, hn]
        have hmod2 : (l.drop BLOCK_LEN).length % BLOCK_LEN = 0 := by
          simp only [List.length_drop]
          have hB : BLOCK_LEN = 128 := rfl
          rw [hB] at hmod ⊢
          omega
        have hnB : BLOCK_LEN ≤ n := hn ▸ h.2
        have hstep : n - BLOCK_LEN < n := by
          have hB : BLOCK_LEN = 128 := rfl
          rw [hB] at hnB ⊢
          omega
        have hrec := ih (n - BLOCK_LEN) hstep (l.drop BLOCK_LEN) hlen hmod2 hdrop
        rw [List.map_cons, List.flatten_cons, hdec, hrec, List.take_append_drop]
      case isFalse h =>
        have hB : BLOCK_LEN = 128 := rfl
        have hzero : l.length = 0 := by
          rw [hB] at hmod h
          omega
        rw [List.length_eq_zero.mp hzero]
        rfl

/-- Claim C5: for every posting list whose elements are sorted strictly ascending (sorted
and unique), compressing and then iterating with the trivial filter yields exactly the
original elements in order (the tail pad completing the final 128-block is cut off by
`take len`), and the compressed list records the original length. -/
theorem C5_compressed_round_trip (l : List Nat) (hs : List.Sorted (· < ·) l) :
    (CompressedPostingList.new ⟨l⟩).iter (fun _ => true) = l ∧
    (CompressedPostingList.new ⟨l⟩).len = l.length := by
  by_cases hl : l = []
  · subst hl; exact ⟨rfl, rfl⟩
  · have hle : List.Sorted (· ≤ ·) l := hs.imp le_of_lt
    have hsort : List.insertionSort (· ≤ ·) l = l :=
      List.eq_of_perm_of_sorted (List.perm_insertionSort _ l)
        (List.sorted_insertionSort _ l) hle
    have hne : ¬l.isEmpty = true := by simpa [List.isEmpty_iff] using hl
    have hpad_sorted : List.Sorted (· ≤ ·)
        (l ++ List.replicate ((BLOCK_LEN - l.length % BLOCK_LEN) % BLOCK_LEN)
          (l.getLast?.getD 0)) := by
      refine List.pairwise_append.mpr
        ⟨hle, List.pairwise_replicate.mpr (Or.inr le_rfl), ?_⟩
      intro a ha b hb
      rw [List.eq_of_mem_replicate hb]
      exact le_getLastD_of_sorted l hle a ha
    have hpad_mod :
        (l ++ List.replicate ((BLOCK_LEN - l.length % BLOCK_LEN) % BLOCK_LEN)
          (l.getLast?.getD 0)).length % BLOCK_LEN = 0 := by
      have hB : BLOCK_LEN = 128 := rfl
      simp only [List.length_append, List.length_replicate, hB]
      omega
    constructor
    · unfold CompressedPostingList.iter CompressedPostingList.new
      rw [if_neg hne]
      dsimp only
      rw [hsort, List.map_map]
      have hcomp : ((fun chunk : CompressedPostingChunk =>
          decompress_sorted chunk.offset chunk.data) ∘ fun chunk : List Nat =>
            CompressedPostingChunk.mk (chunk.headD 0)
              (compress_sorted (chunk.headD 0) chunk))
          = fun chunk : List Nat =>
            decompress_sorted (chunk.headD 0) (compress_sorted (chunk.headD 0) chunk) := rfl
      rw [hcomp, flatten_decode_chunksExact _ _ rfl hpad_mod hpad_sorted,
        List.take_left, List.filter_true]
    · unfold CompressedPostingList.new
      rw [if_neg hne]
      dsimp only
      rw [hsort]

/-- Witness for C5, the spec's scenario 4 input after dedup-sort: the round-trip on
`[10, 42, 137, 9000, 9001]` reproduces the list and its length. -/
theorem C5_compressed_round_trip_witness :
    List.Sorted (· < ·) [10, 42, 137, 9000, 9001] ∧
    (CompressedPostingList.new ⟨[10, 42, 137, 9000, 9001]⟩).iter (fun _ => true)
      = [10, 42, 137, 9000, 9001] ∧
    (CompressedPostingList.new ⟨[10, 42, 137, 9000, 9001]⟩).len = 5 :=
  ⟨by decide, (C5_compressed_round_trip [10, 42, 137, 9000, 9001] (by decide)).1,
    (C5_compressed_round_trip [10, 42, 137, 9000, 9001] (by decide)).2⟩

lemma mem_of_lookup_eq_some {l : Vocab} {a : String} {b : TokenId}
    (h : l.lookup a = some b) : (a, b) ∈ l := by
  induction l with
  | nil => simp [List.lookup] at h
  | cons p rest ih =>
      obtain ⟨k, v⟩ := p
      by_cases hk : a = k
      · subst hk
        rw [List.lookup, beq_self_eq_true] at h
        have hvb : v = b := by simpa using h
        subst hvb
        exact List.mem_cons_self _ _
      · rw [List.lookup, beq_eq_false_iff_ne.mpr hk] at h
        exact List.mem_cons_of_mem _ (ih (by simpa using h))

lemma gatherPostings_isSome (postings : List (Option PostingList)) :
    ∀ tokens : List (Option TokenId),
      (∀ o ∈ tokens, ∀ t, o = some t → t < postings.length) →
      (gatherPostings postings tokens).isSome = true := by
  intro tokens
  induction tokens with
  | nil => intro _; rfl
  | cons o rest ih =>
      intro h
      cases o with
      | none => rfl
      | some t =>
          have ht : t < postings.length := h _ (List.mem_cons_self _ _) t rfl
          cases hget : postings[t]? with
          | none =>
              rw [List.getElem?_eq_getElem ht] at hget
              simp at hget
          | some slot =>
              cases slot with
              | none => simp [gatherPostings, hget]
              | some pl =>
                  have hrest := ih fun o ho t2 he => h o (List.mem_cons_of_mem _ ho) t2 he
                  cases hg : gatherPostings postings rest with
                  | none => rw [hg] at hrest; simp at hrest
                  | some v => simp [gatherPostings, hget, hg]

lemma gatherPostings_shortcircuit (postings : List (Option PostingList)) :
    ∀ tokens : List (Option TokenId),
      (∀ o ∈ tokens, ∀ t, o = some t → t < postings.length) →
      (none ∈ tokens ∨ ∃ t, some t ∈ tokens ∧ postings[t]? = some none) →
      gatherPostings postings tokens = some none := by
  intro tokens
  induction tokens with
  | nil =>
      intro _ habs
      exfalso
      rcases habs with h | ⟨t, ht, _⟩
      · simp at h
      · simp at ht
  | cons o rest ih =>
      intro hin habs
      cases o with
      | none => rfl
      | some t =>
          have ht : t < postings.length := hin _ (List.mem_cons_self _ _) t rfl
          cases hget : postings[t]? with
          | none =>
              rw [List.getElem?_eq_getElem ht] at hget
              simp at hget
          | some slot =>
              cases slot with
              | none => simp [gatherPostings, hget]
              | some pl =>
                  have habs2 : none ∈ rest ∨ ∃ t2, some t2 ∈ rest ∧ postings[t2]? = some none := by
                    rcases habs with h | ⟨t2, ht2, hg2⟩
                    · exact Or.inl (by simpa using h)
                    · rcases List.mem_cons.mp ht2 with he | hmem
                      · exfalso
                        rw [(Option.some.injEq _ _).mp he.symm] at hget
                        rw [hget] at hg2
                        simp at hg2
                      · exact Or.inr ⟨t2, hmem, hg2⟩
                  have hrest := ih (fun o ho t2 he => hin o (List.mem_cons_of_mem _ ho) t2 he) habs2
                  simp [gatherPostings, hget, hrest]

lemma gatherPostings_success (postings : List (Option PostingList)) :
    ∀ (tokens : List (Option TokenId)) (ps : List PostingList),
      gatherPostings postings tokens = some (some ps) →
      List.Forall₂ (fun o pl => ∃ t, o = some t ∧ postings[t]? = some (some pl))
        tokens ps := by
  intro tokens
  induction tokens with
  | nil =>
      intro ps h
      simp [gatherPostings] at h
      subst h
      exact List.Forall₂.nil
  | cons o rest ih =>
      intro ps h
      cases o with
      | none => simp [gatherPostings] at h
      | some t =>
          cases hget : postings[t]? with
          | none => rw [gatherPostings, hget] at h; simp at h
          | some slot =>
              cases slot with
              | none => rw [gatherPostings, hget] at h; simp at h
              | some pl =>
                  rw [gatherPostings, hget] at h
                  cases hg : gatherPostings postings rest with
                  | none => rw [hg] at h; simp at h
                  | some v =>
                      cases v with
                      | none => rw [hg] at h; simp at h
                      | some ps2 =>
                          rw [hg] at h
                          simp at h
                          rw [← h]
                          exact List.Forall₂.cons ⟨t, rfl, hget⟩ (ih ps2 hg)

lemma mem_intersect_postings (p : PostingList) (rest : List PostingList)
    (x : PointOffsetType) :
    x ∈ intersect_postings_iterator (p :: rest) ↔
      ∀ pl ∈ p :: rest, x ∈ pl.list := by
  simp [intersect_postings_iterator, List.mem_filter, List.all_eq_true,
    PostingList.containsId]

/-- Claim C7: `index_document` on the immutable variant returns a service error and the
state of the index (postings, vocabulary, per-point lengths, points count) is unchanged
by the failed call; on the mutable variant the same call succeeds (raises no error). -/
theorem C7_index_document_immutable_rejects (index : ImmutableInvertedIndex)
    (m : MutableInvertedIndex) (idx : PointOffsetType) (document : Document) :
    (∃ msg, (InvertedIndex.Immutable index).index_document idx document =
      (some (OperationError.service_error msg), InvertedIndex.Immutable index)) ∧
    ((InvertedIndex.Mutable m).index_document idx document).1 = none :=
  ⟨⟨"cannot add values to immutable text index", rfl⟩, rfl⟩

/-- Claim C3 fails on the code: building a fresh appendable index from the single point
`(0, ["a"])` produces an index whose posting list 0 is exactly `[0]`, yet whose
vocabulary is empty, so `get_token "a" = none` although "a" occurs in the input token
set.  `build_index` interns the tokens through `self.document_from_tokens` — the OLD
index — and then replaces the whole index with the fresh one, whose vocabulary was never
filled. -/
theorem C3_build_index_failing_input :
    ((InvertedIndex.new true).build_index [(0, ["a"])]).get_token "a" = none ∧
    ((InvertedIndex.new true).build_index [(0, ["a"])]).postingsOf = [some ⟨[0]⟩] ∧
    ((InvertedIndex.new true).build_index [(0, ["a"])]).vocabOf = [] :=
  ⟨by decide, by decide, by decide⟩

/-- Claim C2: under the vocabulary invariant the source unwraps on (resolved token ids
are in bounds of the postings table), `filter` returns the empty iterator when some
query token is unresolved, when the token list is empty, or when some resolved token's
posting slot is absent; otherwise the gathered postings correspond one-to-one to the
resolved query tokens and the ids yielded are exactly their set-theoretic
intersection. -/
theorem C2_filter_intersection (s : InvertedIndex) (q : ParsedQuery)
    (hin : ∀ o ∈ q.tokens, ∀ t, o = some t → t < s.postingsOf.length) :
    (none ∈ q.tokens → s.filter q = some []) ∧
    (q.tokens = [] → s.filter q = some []) ∧
    ((∃ t, some t ∈ q.tokens ∧ s.postingsOf[t]? = some none) → s.filter q = some []) ∧
    (∀ ps, gatherPostings s.postingsOf q.tokens = some (some ps) →
      List.Forall₂ (fun o pl => ∃ t, o = some t ∧ s.postingsOf[t]? = some (some pl))
        q.tokens ps ∧
      ∀ x, x ∈ (s.filter q).getD [] ↔ q.tokens ≠ [] ∧ ∀ pl ∈ ps, x ∈ pl.list) := by
  refine ⟨?_, ?_, ?_, ?_⟩
  · intro hnone
    have hsc := gatherPostings_shortcircuit s.postingsOf q.tokens hin (Or.inl hnone)
    simp [InvertedIndex.filter, hsc]
  · intro hempty
    simp [InvertedIndex.filter, hempty, gatherPostings]
  · intro habs
    have hsc := gatherPostings_shortcircuit s.postingsOf q.tokens hin (Or.inr habs)
    simp [InvertedIndex.filter, hsc]
  · intro ps hps
    have hforall := gatherPostings_success s.postingsOf q.tokens ps hps
    have hlen := List.Forall₂.length_eq hforall
    refine ⟨hforall, ?_⟩
    intro x
    cases ps with
    | nil =>
        have htok : q.tokens = [] := List.length_eq_zero.mp (by simpa using hlen)
        simp [InvertedIndex.filter, hps, htok, gatherPostings]
    | cons p rest =>
        have htok : q.tokens ≠ [] := by
          intro he
          rw [he] at hlen
          simp at hlen
        have hfil : s.filter q = some (intersect_postings_iterator (p :: rest)) := by
          simp [InvertedIndex.filter, hps]
        rw [hfil, Option.getD_some, mem_intersect_postings]
        simp [htok]

/-- Witness for C2: the spec's scenario-1 index, query for tokens 0 and 1 (the ids of
"a" and "b"): point 3 is in the intersection, point 1 is not. -/
theorem C2_filter_intersection_witness :
    3 ∈ ((InvertedIndex.Mutable
        ⟨[some ⟨[0, 2, 3]⟩, some ⟨[0, 1, 3]⟩, some ⟨[1, 2, 3]⟩],
          [("a", 0), ("b", 1), ("c", 2)], [], 4⟩).filter ⟨[some 0, some 1]⟩).getD [] ∧
    ¬(1 ∈ ((InvertedIndex.Mutable
        ⟨[some ⟨[0, 2, 3]⟩, some ⟨[0, 1, 3]⟩, some ⟨[1, 2, 3]⟩],
          [("a", 0), ("b", 1), ("c", 2)], [], 4⟩).filter ⟨[some 0, some 1]⟩).getD []) := by
  have h := (C2_filter_intersection (InvertedIndex.Mutable
      ⟨[some ⟨[0, 2, 3]⟩, some ⟨[0, 1, 3]⟩, some ⟨[1, 2, 3]⟩],
        [("a", 0), ("b", 1), ("c", 2)], [], 4⟩) ⟨[some 0, some 1]⟩ (by decide)).2.2.2
    [⟨[0, 2, 3]⟩, ⟨[0, 1, 3]⟩] (by decide)
  constructor
  · exact (h.2 3).mpr ⟨by decide, by decide⟩
  · intro hmem
    exact absurd ((h.2 1).mp hmem).2 (by decide)

lemma intersect_singleton (p : PostingList) :
    intersect_postings_iterator [p] = p.list := by
  simp [intersect_postings_iterator]

lemma intersect_length_le (p : PostingList) (rest : List PostingList)
    (hnd : p.list.Nodup) :
    ∀ pl ∈ p :: rest, (intersect_postings_iterator (p :: rest)).length ≤ pl.len := by
  intro pl hpl
  rcases List.mem_cons.mp hpl with rfl | hmem
  · exact List.Sublist.length_le (List.filter_sublist _)
  · have hsub : intersect_postings_iterator (p :: rest) ⊆ pl.list := by
      intro x hx
      exact (mem_intersect_postings p rest x).mp hx pl hpl
    have hnd2 : (intersect_postings_iterator (p :: rest)).Nodup :=
      List.Sublist.nodup (List.filter_sublist _) hnd
    calc (intersect_postings_iterator (p :: rest)).length
        = (intersect_postings_iterator (p :: rest)).toFinset.card :=
          (List.toFinset_card_of_nodup hnd2).symm
      _ ≤ pl.list.toFinset.card :=
          Finset.card_le_card
            (fun x hx => List.mem_toFinset.mpr (hsub (List.mem_toFinset.mp hx)))
      _ ≤ pl.list.length := List.toFinset_card_le _

lemma min?_len_achieved (ps : List PostingList) (hne : ps ≠ []) :
    ∃ pl ∈ ps, ((ps.map PostingList.len).min?).getD 0 = pl.len := by
  cases hm : (ps.map PostingList.len).min? with
  | none =>
      rw [List.min?_eq_none_iff] at hm
      exact absurd (List.map_eq_nil_iff.mp hm) hne
  | some m =>
      have hmem : m ∈ ps.map PostingList.len :=
        List.min?_mem (fun a b => by rw [Nat.min_def]; split <;> simp) hm
      rcases List.mem_map.mp hmem with ⟨pl, hpl, he⟩
      exact ⟨pl, hpl, by simp [← he]⟩

/-- Claim C8: when every posting stored in the index is duplicate-free (the sorted
strictly-increasing posting invariant), `estimate_cardinality` returns all-zero bounds
when some token is unresolved or some slot is absent, `min = exp = max = len` for a
single gathered posting, `min = 0` and `max = smallest posting length` for several, and
in all cases the number of points actually yielded by `filter` on the same query lies
between `min` and `max`. -/
theorem C8_estimate_cardinality_bounds {α : Type} (s : InvertedIndex) (q : ParsedQuery)
    (condition : α)
    (hnd : ∀ opl ∈ s.postingsOf, (opl.getD ⟨[]⟩).list.Nodup) :
    ∀ e, s.estimate_cardinality q condition = some e →
      (gatherPostings s.postingsOf q.tokens = some none →
        e.min = 0 ∧ e.exp = 0 ∧ e.max = 0) ∧
      (∀ pl, gatherPostings s.postingsOf q.tokens = some (some [pl]) →
        e.min = pl.len ∧ e.exp = pl.len ∧ e.max = pl.len) ∧
      (∀ ps, gatherPostings s.postingsOf q.tokens = some (some ps) → 1 < ps.length →
        e.min = 0 ∧ e.max = ((ps.map PostingList.len).min?).getD 0) ∧
      (∀ l, s.filter q = some l → e.min ≤ l.length ∧ l.length ≤ e.max) := by
  intro e he
  cases hg : gatherPostings s.postingsOf q.tokens with
  | none => simp [InvertedIndex.estimate_cardinality, hg] at he
  | some v =>
      cases v with
      | none =>
          have he2 : e = ⟨[condition], 0, 0, 0⟩ := by
            simp [InvertedIndex.estimate_cardinality, hg] at he
            exact he.symm
          subst he2
          refine ⟨fun _ => ⟨rfl, rfl, rfl⟩, ?_, ?_, ?_⟩
          · intro pl h2; simp at h2
          · intro ps h2 hlen2
            simp at h2
          · intro l hfil
            simp [InvertedIndex.filter, hg] at hfil
            subst hfil
            constructor <;> simp
      | some ps =>
          cases ps with
          | nil =>
              have he2 : e = ⟨[condition], 0, 0, 0⟩ := by
                simp [InvertedIndex.estimate_cardinality, hg] at he
                exact he.symm
              subst he2
              refine ⟨?_, ?_, ?_, ?_⟩
              · intro h2; simp at h2
              · intro pl h2; simp at h2
              · intro ps2 h2 hlen2
                have : ps2 = [] := by simpa using h2.symm
                subst this
                simp at hlen2
              · intro l hfil
                simp [InvertedIndex.filter, hg, gatherPostings] at hfil
                subst hfil
                constructor <;> simp
          | cons p rest =>
              cases rest with
              | nil =>
                  have he2 : e = ⟨[condition], p.len, p.len, p.len⟩ := by
                    simp [InvertedIndex.estimate_cardinality, hg, List.min?] at he
                    exact he.symm
                  subst he2
                  refine ⟨?_, ?_, ?_, ?_⟩
                  · intro h2; simp at h2
                  · intro pl h2
                    have : p = pl := by simpa using h2
                    subst this
                    exact ⟨rfl, rfl, rfl⟩
                  · intro ps2 h2 hlen2
                    have : ps2 = [p] := by simpa using h2.symm
                    subst this
                    simp at hlen2
                  · intro l hfil
                    simp [InvertedIndex.filter, hg, intersect_singleton] at hfil
                    subst hfil
                    exact ⟨Nat.le_refl _, Nat.le_refl _⟩
              | cons p2 rest2 =>
                  have he2 : e = ⟨[condition], 0,
                      Nat.floor ((((p :: p2 :: rest2).map fun pl =>
                          (pl.len : ℚ) / (s.pointsCountOf : ℚ)).prod) *
                        (s.pointsCountOf : ℚ)),
                      (((p :: p2 :: rest2).map PostingList.len).min?).getD 0⟩ := by
                    simp only [InvertedIndex.estimate_cardinality, hg] at he
                    rw [if_neg (by simp), if_neg (by simp)] at he
                    exact ((Option.some.injEq _ _).mp he).symm
                  subst he2
                  have hndp : p.list.Nodup := by
                    have hforall := gatherPostings_success s.postingsOf q.tokens _ hg
                    rcases List.forall₂_cons_right_iff.mp hforall with
                      ⟨o, l2, ⟨t, _, hget⟩, _, _⟩
                    exact hnd _ (List.getElem?_mem hget)
                  refine ⟨?_, ?_, ?_, ?_⟩
                  · intro h2; simp at h2
                  · intro pl h2
                    have h3 : [pl] = p :: p2 :: rest2 := by
                      rw [Option.some.injEq, Option.some.injEq] at h2
                      exact h2.symm
                    simp at h3
                  · intro ps2 h2 _
                    have h3 : ps2 = p :: p2 :: rest2 := by simpa using h2.symm
                    subst h3
                    exact ⟨rfl, rfl⟩
                  · intro l hfil
                    simp only [InvertedIndex.filter, hg] at hfil
                    rw [if_neg (by simp)] at hfil
                    have hl : l = intersect_postings_iterator (p :: p2 :: rest2) :=
                      ((Option.some.injEq _ _).mp hfil).symm
                    subst hl
                    refine ⟨Nat.zero_le _, ?_⟩
                    rcases min?_len_achieved (p :: p2 :: rest2) (by simp) with
                      ⟨pl0, hpl0, hmin⟩
                    rw [hmin]
                    exact intersect_length_le p (p2 :: rest2) hndp pl0 hpl0

/-- Witness for C8 on the spec's scenario-1 index with the single-token query for "a"
(token 0): `min = exp = max = 3`, the posting length, and `filter` yields 3 points. -/
theorem C8_estimate_cardinality_bounds_witness :
    ((InvertedIndex.Mutable
        ⟨[some ⟨[0, 2, 3]⟩, some ⟨[0, 1, 3]⟩, some ⟨[1, 2, 3]⟩],
          [("a", 0), ("b", 1), ("c", 2)], [], 4⟩).estimate_cardinality ⟨[some 0]⟩ ()
      = some ⟨[()], 3, 3, 3⟩) ∧
    ((⟨[()], 3, 3, 3⟩ : CardinalityEstimation Unit).min = PostingList.len ⟨[0, 2, 3]⟩ ∧
     (⟨[()], 3, 3, 3⟩ : CardinalityEstimation Unit).exp = PostingList.len ⟨[0, 2, 3]⟩ ∧
     (⟨[()], 3, 3, 3⟩ : CardinalityEstimation Unit).max = PostingList.len ⟨[0, 2, 3]⟩) ∧
    ((⟨[()], 3, 3, 3⟩ : CardinalityEstimation Unit).min ≤ 3 ∧
      3 ≤ (⟨[()], 3, 3, 3⟩ : CardinalityEstimation Unit).max) := by
  have h := C8_estimate_cardinality_bounds (InvertedIndex.Mutable
      ⟨[some ⟨[0, 2, 3]⟩, some ⟨[0, 1, 3]⟩, some ⟨[1, 2, 3]⟩],
        [("a", 0), ("b", 1), ("c", 2)], [], 4⟩) ⟨[some 0]⟩ () (by decide)
    ⟨[()], 3, 3, 3⟩ (by decide)
  refine ⟨by decide, h.2.1 ⟨[0, 2, 3]⟩ (by decide), ?_⟩
  exact h.2.2.2 [0, 2, 3] (by decide)

lemma foldl_removeTokenPosting (idx : PointOffsetType) :
    ∀ (tokens : List TokenId) (postings : List (Option PostingList)),
      tokens.Nodup → (∀ t ∈ tokens, t < postings.length) →
      ∃ ps2, tokens.foldl (removeTokenPosting idx) (some postings) = some ps2 ∧
        ps2.length = postings.length ∧
        (∀ t, t ∉ tokens → ps2[t]? = postings[t]?) ∧
        (∀ t ∈ tokens, ps2[t]? =
          (postings[t]?).map (Option.map fun pl => pl.remove idx)) := by
  intro tokens
  induction tokens with
  | nil =>
      intro postings _ _
      exact ⟨postings, rfl, rfl, fun _ _ => rfl, fun t ht => absurd ht (by simp)⟩
  | cons t0 rest ih =>
      intro postings hnd hbound
      have ht0 : t0 < postings.length := hbound _ (List.mem_cons_self _ _)
      obtain ⟨hnd0, hndrest⟩ := List.nodup_cons.mp hnd
      cases hget : postings[t0]? with
      | none => rw [List.getElem?_eq_getElem ht0] at hget; simp at hget
      | some slot =>
          cases slot with
          | none =>
              have hstep :
                  List.foldl (removeTokenPosting idx) (some postings) (t0 :: rest)
                    = List.foldl (removeTokenPosting idx) (some postings) rest := by
                rw [List.foldl_cons]
                congr 1
                simp [removeTokenPosting, hget]
              obtain ⟨ps2, hrun, hlen, hother, hmem⟩ := ih postings hndrest
                fun t ht => hbound t (List.mem_cons_of_mem _ ht)
              refine ⟨ps2, by rw [hstep]; exact hrun, hlen, ?_, ?_⟩
              · intro t ht
                exact hother t fun h => ht (List.mem_cons_of_mem _ h)
              · intro t ht
                rcases List.mem_cons.mp ht with rfl | hmem2
                · rw [hother t hnd0, hget]; rfl
                · exact hmem t hmem2
          | some vec =>
              have hstep :
                  List.foldl (removeTokenPosting idx) (some postings) (t0 :: rest)
                    = List.foldl (removeTokenPosting idx)
                        (some (postings.set t0 (some (vec.remove idx)))) rest := by
                rw [List.foldl_cons]
                congr 1
                simp [removeTokenPosting, hget]
              obtain ⟨ps2, hrun, hlen, hother, hmem⟩ :=
                ih (postings.set t0 (some (vec.remove idx))) hndrest
                  fun t ht => by
                    rw [List.length_set]
                    exact hbound t (List.mem_cons_of_mem _ ht)
              refine ⟨ps2, by rw [hstep]; exact hrun,
                by rw [hlen, List.length_set], ?_, ?_⟩
              · intro t ht
                have ht0ne : ¬(t0 = t) := fun he => ht (he ▸ List.mem_cons_self _ _)
                rw [hother t fun h => ht (List.mem_cons_of_mem _ h),
                  List.getElem?_set, if_neg ht0ne]
              · intro t ht
                rcases List.mem_cons.mp ht with rfl | hmem2
                · rw [hother t hnd0, List.getElem?_set, if_pos rfl, if_pos ht0, hget]
                  rfl
                · rw [hmem t hmem2, List.getElem?_set,
                    if_neg fun he => hnd0 (by rw [he]; exact hmem2)]

/-- Claim C10: frame property of `remove_document` on the mutable index.  When no
document is stored at `idx` (including `idx` beyond the table), it returns `false` and
the whole state is unchanged.  When a duplicate-free document `d` with in-bounds tokens
is stored there, it returns `true`, the vocabulary is untouched, the posting table keeps
its length, every posting slot of a token not in `d` is untouched, and the slots of the
tokens of `d` lose exactly the single occurrence of `idx`. -/
theorem C10_remove_document_frame (s : MutableInvertedIndex) (idx : PointOffsetType) :
    (s.point_to_docs[idx]?.getD none = none → s.remove_document idx = some (false, s)) ∧
    (∀ d, s.point_to_docs[idx]? = some (some d) → d.tokens.Nodup →
      (∀ t ∈ d.tokens, t < s.postings.length) →
      ∃ s2, s.remove_document idx = some (true, s2) ∧
        s2.vocab = s.vocab ∧
        s2.point_to_docs = s.point_to_docs.set idx none ∧
        s2.points_count = s.points_count - 1 ∧
        s2.postings.length = s.postings.length ∧
        (∀ t, t ∉ d.tokens → s2.postings[t]? = s.postings[t]?) ∧
        (∀ t ∈ d.tokens, s2.postings[t]? =
          (s.postings[t]?).map (Option.map fun pl => pl.remove idx))) := by
  constructor
  · intro hnone
    unfold MutableInvertedIndex.remove_document
    by_cases hlen : s.point_to_docs.length ≤ idx
    · rw [if_pos hlen]
    · rw [if_neg hlen]
      have hlt : idx < s.point_to_docs.length := Nat.not_le.mp hlen
      rw [List.getElem?_eq_getElem hlt] at hnone ⊢
      rw [Option.getD_some] at hnone
      rw [hnone]
  · intro d hd hnd hbound
    have hlt : idx < s.point_to_docs.length := by
      by_contra hle
      rw [List.getElem?_eq_none_iff.mpr (Nat.le_of_not_lt hle)] at hd
      simp at hd
    obtain ⟨ps2, hrun, hlen2, hother, hmem⟩ :=
      foldl_removeTokenPosting idx d.tokens s.postings hnd hbound
    refine ⟨⟨ps2, s.vocab, s.point_to_docs.set idx none, s.points_count - 1⟩,
      ?_, rfl, rfl, rfl, hlen2, hother, hmem⟩
    unfold MutableInvertedIndex.remove_document
    rw [if_neg (Nat.not_le.mpr hlt), hd]
    dsimp only
    rw [hrun]
    rfl

/-- Witness for C10: removing point 5 (no document there) changes nothing; removing
point 1 (document with tokens 0 and 1) succeeds and keeps the vocabulary. -/
theorem C10_remove_document_frame_witness :
    (MutableInvertedIndex.remove_document
        ⟨[some ⟨[0, 1]⟩, some ⟨[1]⟩], [("a", 0), ("b", 1)],
          [some ⟨[0]⟩, some ⟨[0, 1]⟩], 2⟩ 5
      = some (false, ⟨[some ⟨[0, 1]⟩, some ⟨[1]⟩], [("a", 0), ("b", 1)],
          [some ⟨[0]⟩, some ⟨[0, 1]⟩], 2⟩)) ∧
    ((MutableInvertedIndex.remove_document
        ⟨[some ⟨[0, 1]⟩, some ⟨[1]⟩], [("a", 0), ("b", 1)],
          [some ⟨[0]⟩, some ⟨[0, 1]⟩], 2⟩ 1).map (fun r => (r.1, r.2.vocab))
      = some (true, [("a", 0), ("b", 1)])) := by
  constructor
  · exact (C10_remove_document_frame
      ⟨[some ⟨[0, 1]⟩, some ⟨[1]⟩], [("a", 0), ("b", 1)],
        [some ⟨[0]⟩, some ⟨[0, 1]⟩], 2⟩ 5).1 (by decide)
  · obtain ⟨s2, heq, hvocab, -, -, -, -, -⟩ := (C10_remove_document_frame
      ⟨[some ⟨[0, 1]⟩, some ⟨[1]⟩], [("a", 0), ("b", 1)],
        [some ⟨[0]⟩, some ⟨[0, 1]⟩], 2⟩ 1).2 ⟨[0, 1]⟩ (by decide) (by decide) (by decide)
    rw [heq]
    simp [hvocab]

lemma internToken_vocab (acc : Vocab × List TokenId) (tok : String) :
    (internToken acc tok).1 = acc.1 ∨
      (internToken acc tok).1 = acc.1 ++ [(tok, acc.1.length)] := by
  unfold internToken
  cases acc.1.lookup tok with
  | some idx => exact Or.inl rfl
  | none => exact Or.inr rfl

lemma internToken_vocab_ext (acc : Vocab × List TokenId) (tok : String) :
    ∃ ext, (internToken acc tok).1 = acc.1 ++ ext := by
  rcases internToken_vocab acc tok with h | h
  · exact ⟨[], by rw [h, List.append_nil]⟩
  · exact ⟨[(tok, acc.1.length)], h⟩

lemma foldl_internToken_vocab_ext (tokens : List String) :
    ∀ acc : Vocab × List TokenId,
      ∃ ext, (tokens.foldl internToken acc).1 = acc.1 ++ ext := by
  induction tokens with
  | nil => intro acc; exact ⟨[], (List.append_nil _).symm⟩
  | cons tok rest ih =>
      intro acc
      rw [List.foldl_cons]
      rcases ih (internToken acc tok) with ⟨ext2, hext2⟩
      rcases internToken_vocab_ext acc tok with ⟨ext1, hext1⟩
      exact ⟨ext1 ++ ext2, by rw [hext2, hext1, List.append_assoc]⟩

lemma internToken_ids (acc : Vocab × List TokenId) (tok : String)
    (h : ∀ t ∈ acc.2, VocabHasId acc.1 t) :
    ∀ t ∈ (internToken acc tok).2, VocabHasId (internToken acc tok).1 t := by
  intro t
  unfold internToken
  cases hcase : acc.1.lookup tok with
  | some idx =>
      intro ht
      rcases List.mem_append.mp ht with hmem | hmem
      · exact h t hmem
      · rw [List.mem_singleton.mp hmem]
        exact ⟨tok, mem_of_lookup_eq_some hcase⟩
  | none =>
      intro ht
      rcases List.mem_append.mp ht with hmem | hmem
      · rcases h t hmem with ⟨str, hstr⟩
        exact ⟨str, List.mem_append.mpr (Or.inl hstr)⟩
      · rw [List.mem_singleton.mp hmem]
        exact ⟨tok, List.mem_append.mpr (Or.inr (List.mem_singleton.mpr rfl))⟩

lemma foldl_internToken_ids (tokens : List String) :
    ∀ acc : Vocab × List TokenId,
      (∀ t ∈ acc.2, VocabHasId acc.1 t) →
      ∀ t ∈ (tokens.foldl internToken acc).2,
        VocabHasId (tokens.foldl internToken acc).1 t := by
  induction tokens with
  | nil => intro acc h; exact h
  | cons tok rest ih =>
      intro acc h
      rw [List.foldl_cons]
      exact ih _ (internToken_ids acc tok h)

lemma indexTokenPosting_length (idx t : Nat) (ps : List (Option PostingList)) :
    (indexTokenPosting idx ps t).length = max ps.length (t + 1) := by
  unfold indexTokenPosting resizeWithNone
  by_cases hle : ps.length ≤ t
  · rw [if_pos hle]
    have hglen : (ps ++ List.replicate (t + 1 - ps.length)
        (none : Option PostingList)).length = t + 1 := by
      rw [List.length_append, List.length_replicate]
      omega
    dsimp only
    cases hget : (ps ++ List.replicate (t + 1 - ps.length)
        (none : Option PostingList))[t]? with
    | none => simp only [hget]; rw [hglen]; omega
    | some slot =>
        cases slot with
        | none => simp only [hget, List.length_set]; rw [hglen]; omega
        | some vec => simp only [hget, List.length_set]; rw [hglen]; omega
  · rw [if_neg hle]
    dsimp only
    cases hget : ps[t]? with
    | none => simp only [hget]; omega
    | some slot =>
        cases slot with
        | none => simp only [hget, List.length_set]; omega
        | some vec => simp only [hget, List.length_set]; omega

lemma foldl_indexTokenPosting_length (idx : Nat) :
    ∀ (tokens : List TokenId) (ps : List (Option PostingList)),
      ps.length ≤ (tokens.foldl (indexTokenPosting idx) ps).length ∧
      ∀ t ∈ tokens, t < (tokens.foldl (indexTokenPosting idx) ps).length := by
  intro tokens
  induction tokens with
  | nil => intro ps; exact ⟨Nat.le_refl _, fun t ht => absurd ht (by simp)⟩
  | cons t0 rest ih =>
      intro ps
      rw [List.foldl_cons]
      rcases ih (indexTokenPosting idx ps t0) with ⟨hle, hall⟩
      have hstep := indexTokenPosting_length idx t0 ps
      refine ⟨le_trans (by rw [hstep]; omega) hle, ?_⟩
      intro t ht
      rcases List.mem_cons.mp ht with rfl | hmem
      · exact Nat.lt_of_lt_of_le (by rw [hstep]; omega) hle
      · exact hall t hmem

lemma removeTokenPosting_none (idx : Nat) (t : TokenId) :
    removeTokenPosting idx none t = none := rfl

lemma foldl_removeTokenPosting_length (idx : Nat) :
    ∀ (tokens : List TokenId) (acc : Option (List (Option PostingList)))
      (ps2 : List (Option PostingList)),
      tokens.foldl (removeTokenPosting idx) acc = some ps2 →
      ∃ ps0, acc = some ps0 ∧ ps2.length = ps0.length := by
  intro tokens
  induction tokens with
  | nil =>
      intro acc ps2 h
      exact ⟨ps2, h, rfl⟩
  | cons t0 rest ih =>
      intro acc ps2 h
      rw [List.foldl_cons] at h
      rcases ih _ _ h with ⟨ps1, hstep, hlen⟩
      cases acc with
      | none => rw [removeTokenPosting_none] at hstep; simp at hstep
      | some ps0 =>
          refine ⟨ps0, rfl, ?_⟩
          unfold removeTokenPosting at hstep
          rw [Option.some_bind] at hstep
          cases hget : ps0[t0]? with
          | none => rw [hget] at hstep; simp at hstep
          | some slot =>
              cases slot with
              | none =>
                  rw [hget] at hstep
                  have : ps1 = ps0 := by simpa using hstep.symm
                  rw [hlen, this]
              | some vec =>
                  rw [hget] at hstep
                  have : ps1 = ps0.set t0 (some (vec.remove idx)) := by
                    simpa using hstep.symm
                  rw [hlen, this, List.length_set]

lemma document_from_tokens_mutable (index : MutableInvertedIndex)
    (tokens : List String) :
    (InvertedIndex.Mutable index).document_from_tokens tokens =
      (Document.new (tokens.foldl internToken (index.vocab, [])).2,
        InvertedIndex.Mutable
          { index with vocab := (tokens.foldl internToken (index.vocab, [])).1 }) := rfl

lemma mutable_index_document_eq (s : MutableInvertedIndex) (idx : PointOffsetType)
    (document : Document) :
    s.index_document idx document =
      ⟨document.tokens.foldl (indexTokenPosting idx) s.postings,
        s.vocab,
        (if s.point_to_docs.length ≤ idx then resizeWithNone s.point_to_docs (idx + 1)
          else s.point_to_docs).set idx (some document),
        s.points_count + 1⟩ := rfl

lemma applyOp_addDoc_mutable (index : MutableInvertedIndex) (idx : PointOffsetType)
    (tokens : List String) :
    (InvertedIndex.Mutable index).applyOp (.addDoc idx tokens) =
      some (.Mutable (MutableInvertedIndex.index_document
        { index with vocab := (tokens.foldl internToken (index.vocab, [])).1 }
        idx (Document.new (tokens.foldl internToken (index.vocab, [])).2))) := rfl

lemma mem_storedTokens_mutable (index : MutableInvertedIndex) (t : TokenId) :
    t ∈ (InvertedIndex.Mutable index).storedTokens ↔
      ∃ d, some d ∈ index.point_to_docs ∧ t ∈ d.tokens := by
  unfold InvertedIndex.storedTokens
  rw [List.mem_flatten]
  constructor
  · rintro ⟨l, hl, hmem⟩
    rcases List.mem_map.mp hl with ⟨d, hd, rfl⟩
    rcases List.mem_filterMap.mp hd with ⟨od, hod, hode⟩
    have hode2 : od = some d := hode
    subst hode2
    exact ⟨d, hod, hmem⟩
  · rintro ⟨d, hd, hmem⟩
    exact ⟨d.tokens,
      List.mem_map.mpr ⟨d, List.mem_filterMap.mpr ⟨some d, hd, rfl⟩, rfl⟩, hmem⟩

lemma remove_document_components (index : MutableInvertedIndex) (idx : PointOffsetType)
    (r : Bool × MutableInvertedIndex) (h : index.remove_document idx = some r) :
    r.2.vocab = index.vocab ∧ index.postings.length = r.2.postings.length ∧
    (∀ dd, some dd ∈ r.2.point_to_docs → some dd ∈ index.point_to_docs) := by
  unfold MutableInvertedIndex.remove_document at h
  by_cases hlen : index.point_to_docs.length ≤ idx
  · rw [if_pos hlen] at h
    have hr : (false, index) = r := by simpa using h
    rw [← hr]
    exact ⟨rfl, rfl, fun dd hdd => hdd⟩
  · rw [if_neg hlen] at h
    cases hget : index.point_to_docs[idx]? with
    | none =>
        rw [hget] at h
        have hr : (false, index) = r := by simpa using h
        rw [← hr]
        exact ⟨rfl, rfl, fun dd hdd => hdd⟩
    | some od =>
        cases od with
        | none =>
            rw [hget] at h
            have hr : (false, index) = r := by simpa using h
            rw [← hr]
            exact ⟨rfl, rfl, fun dd hdd => hdd⟩
        | some removed_doc =>
            rw [hget] at h
            dsimp only at h
            cases hfold : removed_doc.tokens.foldl (removeTokenPosting idx)
                (some index.postings) with
            | none => rw [hfold] at h; simp at h
            | some ps2 =>
                rw [hfold] at h
                rcases foldl_removeTokenPosting_length idx removed_doc.tokens _ _ hfold
                  with ⟨ps0, hps0, hlen2⟩
                have hps0e : ps0 = index.postings := by simpa using hps0.symm
                have hr : ((true, ⟨ps2, index.vocab, index.point_to_docs.set idx none,
                    index.points_count - 1⟩) : Bool × MutableInvertedIndex) = r := by
                  simpa using h
                rw [← hr]
                refine ⟨rfl, ?_, ?_⟩
                · have hx : ps2.length = index.postings.length := by rw [hlen2, hps0e]
                  exact hx.symm
                · intro dd hdd
                  rcases List.mem_or_eq_of_mem_set hdd with hmem | habs
                  · exact hmem
                  · simp at habs

lemma applyOp_aligned (s : InvertedIndex) (op : IndexOp) (s2 : InvertedIndex)
    (happ : s.applyOp op = some s2) (hs : IndexAligned s) : IndexAligned s2 := by
  cases op with
  | newDoc tokens =>
      cases s with
      | Mutable index =>
          have hs2 : InvertedIndex.Mutable
              { index with vocab := (tokens.foldl internToken (index.vocab, [])).1 }
              = s2 := Option.some.inj happ
          rw [← hs2]
          intro t ht
          have ht2 : t ∈ (InvertedIndex.Mutable index).storedTokens := ht
          rcases hs t ht2 with ⟨⟨str, hstr⟩, hlt⟩
          rcases foldl_internToken_vocab_ext tokens (index.vocab, []) with ⟨ext, hext⟩
          refine ⟨⟨str, ?_⟩, hlt⟩
          show (str, t) ∈ (tokens.foldl internToken (index.vocab, [])).1
          rw [hext]
          exact List.mem_append.mpr (Or.inl hstr)
      | Immutable index =>
          have hs2 : InvertedIndex.Immutable
              { index with vocab := (tokens.foldl internToken (index.vocab, [])).1 }
              = s2 := Option.some.inj happ
          rw [← hs2]
          intro t ht
          simp [InvertedIndex.storedTokens] at ht
  | addDoc idx tokens =>
      cases s with
      | Immutable index =>
          have hs2 : InvertedIndex.Immutable
              { index with vocab := (tokens.foldl internToken (index.vocab, [])).1 }
              = s2 := Option.some.inj happ
          rw [← hs2]
          intro t ht
          simp [InvertedIndex.storedTokens] at ht
      | Mutable index =>
          rw [applyOp_addDoc_mutable] at happ
          have hs2 := Option.some.inj happ
          rw [← hs2]
          intro t ht
          rw [mem_storedTokens_mutable] at ht
          rcases ht with ⟨dd, hdd, htd⟩
          rw [mutable_index_document_eq] at hdd
          dsimp only at hdd
          have hfoldlen := foldl_indexTokenPosting_length idx
            (Document.new (tokens.foldl internToken (index.vocab, [])).2).tokens
            index.postings
          rcases List.mem_or_eq_of_mem_set hdd with hmem | heq
      -- the two sub-cases of where the document of t came from
          · have hmem2 : some dd ∈ index.point_to_docs := by
              by_cases hgrow : index.point_to_docs.length ≤ idx
              · rw [if_pos hgrow] at hmem
                unfold resizeWithNone at hmem
                rcases List.mem_append.mp hmem with hmem3 | hmem3
                · exact hmem3
                · exact absurd (List.eq_of_mem_replicate hmem3) (by simp)
              · rw [if_neg hgrow] at hmem
                exact hmem
            rcases hs t ((mem_storedTokens_mutable index t).mpr ⟨dd, hmem2, htd⟩)
              with ⟨⟨str, hstr⟩, hlt⟩
            rcases foldl_internToken_vocab_ext tokens (index.vocab, []) with ⟨ext, hext⟩
            refine ⟨⟨str, ?_⟩, ?_⟩
            · show (str, t) ∈ (tokens.foldl internToken (index.vocab, [])).1
              rw [hext]
              exact List.mem_append.mpr (Or.inl hstr)
            · exact Nat.lt_of_lt_of_le hlt (by rw [mutable_index_document_eq]; exact hfoldlen.1)
          · have hddoc : dd = Document.new (tokens.foldl internToken (index.vocab, [])).2 := by
              simpa using heq
            subst hddoc
            have htids : t ∈ (tokens.foldl internToken (index.vocab, [])).2 :=
              (List.perm_insertionSort _ _).mem_iff.mp htd
            refine ⟨?_, ?_⟩
            · exact foldl_internToken_ids tokens (index.vocab, [])
                (fun x hx => absurd hx (by simp)) t htids
            · rw [mutable_index_document_eq]
              exact hfoldlen.2 t htd
  | removeDoc idx =>
      cases s with
      | Mutable index =>
          have happ2 : (index.remove_document idx).map
              (fun r => InvertedIndex.Mutable r.2) = some s2 := happ
          cases hrem : index.remove_document idx with
          | none => rw [hrem] at happ2; simp at happ2
          | some r =>
              rw [hrem] at happ2
              have hs2 : InvertedIndex.Mutable r.2 = s2 := by simpa using happ2
              rw [← hs2]
              intro t ht
              rw [mem_storedTokens_mutable] at ht
              rcases ht with ⟨dd, hdd, htd⟩
              rcases remove_document_components index idx r hrem with
                ⟨hvocab, hplen, hdocs⟩
              rcases hs t ((mem_storedTokens_mutable index t).mpr
                ⟨dd, hdocs dd hdd, htd⟩) with ⟨⟨str, hstr⟩, hlt⟩
              refine ⟨⟨str, ?_⟩, ?_⟩
              · show (str, t) ∈ r.2.vocab
                rw [hvocab]
                exact hstr
              · show t < r.2.postings.length
                rw [← hplen]
                exact hlt
      | Immutable index =>
          have hs2 : InvertedIndex.Immutable (index.remove_document idx).2 = s2 :=
            Option.some.inj happ
          rw [← hs2]
          intro t ht
          simp [InvertedIndex.storedTokens] at ht
  | freeze =>
      cases s with
      | Mutable index =>
          have hs2 : InvertedIndex.Immutable index.toImmutable = s2 :=
            Option.some.inj happ
          rw [← hs2]
          intro t ht
          simp [InvertedIndex.storedTokens] at ht
      | Immutable index =>
          have hs2 : InvertedIndex.Immutable index = s2 := Option.some.inj happ
          rw [← hs2]
          intro t ht
          simp [InvertedIndex.storedTokens] at ht

lemma runIndexOps_aligned (ops : List IndexOp) :
    ∀ s s2 : InvertedIndex, s.runIndexOps ops = some s2 →
      IndexAligned s → IndexAligned s2 := by
  induction ops with
  | nil =>
      intro s s2 h hs
      have h2 : some s = some s2 := h
      rw [← Option.some.inj h2]
      exact hs
  | cons op rest ih =>
      intro s s2 h hs
      have h2 : (s.applyOp op).bind (fun s3 => s3.runIndexOps rest) = some s2 := h
      cases happ : s.applyOp op with
      | none => rw [happ] at h2; simp at h2
      | some s3 =>
          rw [happ, Option.some_bind] at h2
          exact ih s3 s2 h2 (applyOp_aligned s op s3 happ hs)

lemma aligned_new (b : Bool) : IndexAligned (InvertedIndex.new b) := by
  cases b <;> intro t ht <;>
    simp [InvertedIndex.new, InvertedIndex.storedTokens,
      MutableInvertedIndex.defaultIndex] at ht

lemma filter_estimate_isSome_of_gather {α : Type} (s : InvertedIndex) (q : ParsedQuery)
    (c : α) (h : (gatherPostings s.postingsOf q.tokens).isSome = true) :
    (s.filter q).isSome = true ∧ (s.estimate_cardinality q c).isSome = true := by
  cases hg : gatherPostings s.postingsOf q.tokens with
  | none => rw [hg] at h; simp at h
  | some v =>
      cases v with
      | none =>
          exact ⟨by simp [InvertedIndex.filter, hg],
            by simp [InvertedIndex.estimate_cardinality, hg]⟩
      | some ps =>
          constructor
          · simp only [InvertedIndex.filter, hg]
            split <;> simp
          · simp only [InvertedIndex.estimate_cardinality, hg]
            split
            · simp
            · split <;> simp

/-- Claim C4: after any sequence of `document_from_tokens`, `index_document` (of the
produced document), `remove_document` and mutable-to-immutable conversion starting from
a fresh index, the alignment invariant holds — every token id stored in a currently
indexed document has a vocabulary entry mapping some string to it and an in-bounds slot
in the postings table (the slot may be `none`) — and in particular `filter` and
`estimate_cardinality` never index past the end of the postings table for queries made
of such stored tokens (no out-of-bounds panic, modelled as `isSome`). -/
theorem C4_alignment_invariant {α : Type} (b : Bool) (ops : List IndexOp)
    (s : InvertedIndex) (hrun : (InvertedIndex.new b).runIndexOps ops = some s)
    (condition : α) :
    IndexAligned s ∧
    ∀ q : ParsedQuery, (∀ o ∈ q.tokens, ∀ t, o = some t → t ∈ s.storedTokens) →
      (s.filter q).isSome = true ∧
      (s.estimate_cardinality q condition).isSome = true := by
  have haligned : IndexAligned s :=
    runIndexOps_aligned ops (InvertedIndex.new b) s hrun (aligned_new b)
  refine ⟨haligned, fun q hq => ?_⟩
  refine filter_estimate_isSome_of_gather s q condition
    (gatherPostings_isSome s.postingsOf q.tokens fun o ho t he => ?_)
  exact (haligned t (hq o ho t he)).2

/-- Witness for C4: after indexing point 0 with token set `["a"]` on a fresh appendable
index, the query for stored token 0 neither panics in `filter` nor in
`estimate_cardinality`. -/
theorem C4_alignment_invariant_witness :
    ((InvertedIndex.Mutable ⟨[some ⟨[0]⟩], [("a", 0)], [some ⟨[0]⟩], 1⟩).filter
        ⟨[some 0]⟩).isSome = true ∧
    ((InvertedIndex.Mutable
        ⟨[some ⟨[0]⟩], [("a", 0)], [some ⟨[0]⟩], 1⟩).estimate_cardinality
        ⟨[some 0]⟩ ()).isSome = true :=
  (C4_alignment_invariant true [IndexOp.addDoc 0 ["a"]]
    (InvertedIndex.Mutable ⟨[some ⟨[0]⟩], [("a", 0)], [some ⟨[0]⟩], 1⟩)
    (by decide) ()).2 ⟨[some 0]⟩ (by decide)
